import Mathlib

/-!
# Reed–Solomon codec: shallow embedding and verification

This file embeds the Reed–Solomon demo repository (`reed-solomon.py`) and the
codec it drives.  The repository's own source is a thin interactive demo around
a codec library; the codec itself (GF(256) arithmetic, polynomial engine,
systematic encoder, syndrome/locator/evaluator decoder) is modelled from the
design document's description.  Field elements are natural numbers below 256,
polynomials are lists of field elements with index 0 the highest-degree
coefficient (big-endian), and fallible operations return `Except`.
-/

set_option maxRecDepth 100000

namespace RS

/-- Errors surfaced by the codec, as named in the design document. -/
inductive RSError where
  | InvalidParameters
  | TooManyErrors
  | UncorrectableCodeword
  | CorrectionFailed
  deriving DecidableEq, Repr

/-! ## GF(256) field arithmetic

Modelled from the spec: the field is defined by the fixed primitive polynomial
x^8+x^4+x^3+x^2+1 (0x11d) with generator 2; the log/antilog tables are built by
iterating the generator through all 255 nonzero field values, and multiply /
divide / inverse / power are defined through those tables. -/

/-- One multiplication by the generator 2, reducing modulo the primitive
polynomial 0x11d when the degree-8 bit appears. -/
def xtime (x : Nat) : Nat :=
  let y := 2 * x
  if 256 ≤ y then y ^^^ 0x11d else y

/-- The antilog at index `i`: the generator 2 raised to the `i`-th power: the antilog table
entry at index `i`, produced by iterating `xtime` starting from 1. -/
def gfExp (i : Nat) : Nat := xtime^[i] 1

/-- The antilog table restricted to one period: the 255 nonzero field
elements, in generator-power order. -/
def expTable : List Nat := (List.range 255).map gfExp

/-- The log table: `gfLog x` is the index of `x` in the antilog table
(element 0 has no log value; the returned default is never used because
multiplication checks for zero first). -/
def gfLog (x : Nat) : Nat := expTable.indexOf x

/-- Field multiplication via the tables: `antilog[(log a + log b) mod 255]`,
with 0 absorbing. -/
def gfMul (a b : Nat) : Nat :=
  if a = 0 ∨ b = 0 then 0 else gfExp ((gfLog a + gfLog b) % 255)

/-- Field inverse via the tables: `antilog[(255 - log a) mod 255]`; the
inverse of 0 does not exist and is returned as the junk value 0 (the decoder
never divides by zero on the paths exercised here). -/
def gfInv (a : Nat) : Nat :=
  if a = 0 then 0 else gfExp ((255 - gfLog a) % 255)

/-- Field division `a / b` as multiplication by the inverse. -/
def gfDiv (a b : Nat) : Nat := gfMul a (gfInv b)

/-- Field power via the tables: `antilog[(log a * n) mod 255]`, with the
conventions `a^0 = 1` and `0^n = 0` for `n > 0`. -/
def gfPow (a n : Nat) : Nat :=
  if n = 0 then 1 else if a = 0 then 0 else gfExp ((gfLog a * n) % 255)

/-! ### Field facts -/

theorem xtime_lt_all : ∀ x < 256, xtime x < 256 := by decide

theorem xtime_lt {x : Nat} (hx : x < 256) : xtime x < 256 := xtime_lt_all x hx

theorem xtime_ne_zero_all : ∀ x < 256, x ≠ 0 → xtime x ≠ 0 := by decide

theorem gfExp_lt (i : Nat) : gfExp i < 256 := by
  induction i with
  | zero => decide
  | succ n ih =>
    rw [gfExp, Function.iterate_succ_apply']
    exact xtime_lt ih

theorem gfExp_ne_zero (i : Nat) : gfExp i ≠ 0 := by
  induction i with
  | zero => decide
  | succ n ih =>
    rw [gfExp, Function.iterate_succ_apply']
    exact xtime_ne_zero_all _ (gfExp_lt n) ih

theorem gfExp_succ (i : Nat) : gfExp (i + 1) = xtime (gfExp i) :=
  Function.iterate_succ_apply' xtime i 1

theorem expTable_length : expTable.length = 255 := by
  simp [expTable]

theorem expTable_getElem (i : Nat) (h : i < expTable.length) :
    expTable[i] = gfExp i := by
  simp [expTable]

theorem expTable_nodup : expTable.Nodup := by decide

theorem mem_expTable {x : Nat} (hx : x < 256) (hnz : x ≠ 0) : x ∈ expTable := by
  revert hnz
  revert x
  decide

theorem gfLog_exp {i : Nat} (h : i < 255) : gfLog (gfExp i) = i := by
  have h' : i < expTable.length := by rw [expTable_length]; exact h
  have := List.indexOf_getElem expTable_nodup i h'
  rwa [expTable_getElem i h'] at this

theorem gfExp_log {x : Nat} (hx : x < 256) (hnz : x ≠ 0) : gfExp (gfLog x) = x := by
  have hm : x ∈ expTable := mem_expTable hx hnz
  have hl : List.indexOf x expTable < expTable.length := List.indexOf_lt_length.2 hm
  have := List.getElem_indexOf (a := x) (l := expTable) hl
  rwa [expTable_getElem _ hl] at this

theorem gfLog_lt {x : Nat} (hx : x < 256) (hnz : x ≠ 0) : gfLog x < 255 := by
  have hm : x ∈ expTable := mem_expTable hx hnz
  have := List.indexOf_lt_length.2 hm
  rwa [expTable_length] at this

/-! ### Ring laws for the table-based multiplication -/

theorem gfMul_zero (a : Nat) : gfMul a 0 = 0 := by simp [gfMul]

theorem zero_gfMul (a : Nat) : gfMul 0 a = 0 := by simp [gfMul]

theorem gfMul_comm (a b : Nat) : gfMul a b = gfMul b a := by
  unfold gfMul
  rw [Nat.add_comm]
  by_cases ha : a = 0 <;> by_cases hb : b = 0 <;> simp [ha, hb]

theorem gfMul_lt (a b : Nat) : gfMul a b < 256 := by
  unfold gfMul
  split
  · omega
  · exact gfExp_lt _

theorem gfMul_ne_zero {a b : Nat} (ha : a ≠ 0) (hb : b ≠ 0) : gfMul a b ≠ 0 := by
  unfold gfMul
  rw [if_neg (by tauto)]
  exact gfExp_ne_zero _

theorem gfMul_exp_exp (i j : Nat) (hi : i < 255) (hj : j < 255) :
    gfMul (gfExp i) (gfExp j) = gfExp ((i + j) % 255) := by
  unfold gfMul
  rw [if_neg (by push_neg; exact ⟨gfExp_ne_zero i, gfExp_ne_zero j⟩),
    gfLog_exp hi, gfLog_exp hj]

theorem one_gfMul {b : Nat} (hb : b < 256) : gfMul 1 b = b := by
  by_cases hz : b = 0
  · simp [hz, gfMul]
  · unfold gfMul
    rw [if_neg (by push_neg; exact ⟨one_ne_zero, hz⟩)]
    have h1 : gfLog 1 = 0 := by decide
    rw [h1, Nat.zero_add, Nat.mod_eq_of_lt (gfLog_lt hb hz), gfExp_log hb hz]

theorem gfMul_one {a : Nat} (ha : a < 256) : gfMul a 1 = a := by
  rw [gfMul_comm]; exact one_gfMul ha

theorem gfMul_exp_left (i : Nat) (hi : i < 255) {c : Nat} (hzc : c ≠ 0) :
    gfMul (gfExp i) c = gfExp ((i + gfLog c) % 255) := by
  unfold gfMul
  rw [if_neg (by push_neg; exact ⟨gfExp_ne_zero i, hzc⟩), gfLog_exp hi]

theorem gfMul_exp_right (j : Nat) (hj : j < 255) {a : Nat} (hza : a ≠ 0) :
    gfMul a (gfExp j) = gfExp ((gfLog a + j) % 255) := by
  unfold gfMul
  rw [if_neg (by push_neg; exact ⟨hza, gfExp_ne_zero j⟩), gfLog_exp hj]

theorem gfMul_assoc (a b c : Nat) (ha : a < 256) (hb : b < 256) (hc : c < 256) :
    gfMul (gfMul a b) c = gfMul a (gfMul b c) := by
  by_cases hza : a = 0
  · simp [hza, zero_gfMul]
  by_cases hzb : b = 0
  · simp [hzb, gfMul_zero, zero_gfMul]
  by_cases hzc : c = 0
  · simp [hzc, gfMul_zero]
  have hab : gfMul a b = gfExp ((gfLog a + gfLog b) % 255) := by
    unfold gfMul; rw [if_neg (by tauto)]
  have hbc : gfMul b c = gfExp ((gfLog b + gfLog c) % 255) := by
    unfold gfMul; rw [if_neg (by tauto)]
  rw [hab, hbc,
    gfMul_exp_left _ (Nat.mod_lt _ (by norm_num)) hzc,
    gfMul_exp_right _ (Nat.mod_lt _ (by norm_num)) hza,
    Nat.mod_add_mod, Nat.add_mod_mod, Nat.add_assoc]

theorem xor_lt_256 {x y : Nat} (hx : x < 256) (hy : y < 256) : x ^^^ y < 256 := by
  have : (256 : Nat) = 2 ^ 8 := by norm_num
  rw [this] at hx hy ⊢
  exact Nat.xor_lt_two_pow hx hy

/-! ### Distributivity of multiplication over GF(256) addition (xor) -/

theorem mul_two_xor (a b : Nat) : 2 * (a ^^^ b) = 2 * a ^^^ 2 * b := by
  have h : ∀ z : Nat, 2 * z = z <<< 1 := by
    intro z; rw [Nat.shiftLeft_eq]; ring
  rw [h, h, h]
  apply Nat.eq_of_testBit_eq
  intro i
  simp only [Nat.testBit_shiftLeft, Nat.testBit_xor, Bool.and_xor_distrib_left]

theorem xor_div_pow (a b k : Nat) : (a ^^^ b) / 2 ^ k = a / 2 ^ k ^^^ b / 2 ^ k := by
  induction k with
  | zero => simp
  | succ n ih =>
    have h : ∀ z : Nat, z / 2 ^ (n + 1) = z / 2 ^ n / 2 := by
      intro z; rw [Nat.div_div_eq_div_mul, Nat.pow_succ]
    rw [h, h, h, ih, Nat.xor_div_two]

theorem xor_left_comm (a b c : Nat) : a ^^^ (b ^^^ c) = b ^^^ (a ^^^ c) := by
  rw [← Nat.xor_assoc, Nat.xor_comm a b, Nat.xor_assoc]

theorem xtime_eq {z : Nat} (hz : z < 256) : xtime z = 2 * z ^^^ z / 128 * 285 := by
  by_cases h : 256 ≤ 2 * z
  · have hd : z / 128 = 1 := by omega
    simp [xtime, h, hd]
  · have hd : z / 128 = 0 := by omega
    simp [xtime, h, hd]

theorem xtime_xor {x y : Nat} (hx : x < 256) (hy : y < 256) :
    xtime (x ^^^ y) = xtime x ^^^ xtime y := by
  rw [xtime_eq (xor_lt_256 hx hy), xtime_eq hx, xtime_eq hy, mul_two_xor]
  have hdiv : (x ^^^ y) / 128 = x / 128 ^^^ y / 128 := by
    have h128 : (128 : Nat) = 2 ^ 7 := by norm_num
    rw [h128, xor_div_pow]
  rw [hdiv]
  have hx7 : x / 128 = 0 ∨ x / 128 = 1 := by omega
  have hy7 : y / 128 = 0 ∨ y / 128 = 1 := by omega
  rcases hx7 with h1 | h1 <;> rcases hy7 with h2 | h2 <;>
    rw [h1, h2] <;>
    simp [Nat.xor_assoc, Nat.xor_comm, xor_left_comm, Nat.xor_self,
      Nat.xor_zero, Nat.zero_xor]

theorem gfExp_255 : gfExp 255 = 1 := by decide

theorem two_eq_gfExp_one : (2 : Nat) = gfExp 1 := by decide

theorem gfMul_two {b : Nat} (hb : b < 256) : gfMul 2 b = xtime b := by
  by_cases hzb : b = 0
  · subst hzb; decide
  · rw [two_eq_gfExp_one, gfMul_exp_left 1 (by norm_num) hzb]
    have hlb : gfLog b < 255 := gfLog_lt hb hzb
    rcases Nat.lt_or_ge (gfLog b) 254 with hc | hc
    · rw [Nat.mod_eq_of_lt (by omega), Nat.add_comm, gfExp_succ, gfExp_log hb hzb]
    · have h254 : gfLog b = 254 := by omega
      rw [h254]
      have : (1 + 254) % 255 = 0 := by norm_num
      rw [this]
      have hb' : b = gfExp 254 := by rw [← h254, gfExp_log hb hzb]
      rw [hb', ← gfExp_succ, gfExp_255]
      decide

theorem gfMul_exp_xor_distrib (k : Nat) :
    ∀ x < 256, ∀ y < 256,
      gfMul (gfExp k) (x ^^^ y) = gfMul (gfExp k) x ^^^ gfMul (gfExp k) y := by
  induction k with
  | zero =>
    intro x hx y hy
    show gfMul 1 _ = gfMul 1 _ ^^^ gfMul 1 _
    rw [one_gfMul (xor_lt_256 hx hy), one_gfMul hx, one_gfMul hy]
  | succ n ih =>
    intro x hx y hy
    have he : gfExp n < 256 := gfExp_lt n
    have hstep : gfExp (n + 1) = gfMul 2 (gfExp n) := by
      rw [gfMul_two he, gfExp_succ]
    have hassoc : ∀ z, z < 256 →
        gfMul (gfExp (n + 1)) z = gfMul 2 (gfMul (gfExp n) z) := by
      intro z hz
      rw [hstep, gfMul_assoc 2 (gfExp n) z (by norm_num) he hz]
    rw [hassoc _ (xor_lt_256 hx hy), hassoc _ hx, hassoc _ hy, ih x hx y hy,
      gfMul_two (xor_lt_256 (gfMul_lt _ _) (gfMul_lt _ _)),
      xtime_xor (gfMul_lt _ _) (gfMul_lt _ _),
      ← gfMul_two (gfMul_lt _ _), ← gfMul_two (gfMul_lt _ _)]

theorem gfMul_xor_distrib {a x y : Nat} (ha : a < 256) (hx : x < 256) (hy : y < 256) :
    gfMul a (x ^^^ y) = gfMul a x ^^^ gfMul a y := by
  by_cases hza : a = 0
  · simp [hza, zero_gfMul]
  · rw [show a = gfExp (gfLog a) from (gfExp_log ha hza).symm]
    exact gfMul_exp_xor_distrib _ x hx y hy

theorem xor_gfMul_distrib {a x y : Nat} (ha : a < 256) (hx : x < 256) (hy : y < 256) :
    gfMul (x ^^^ y) a = gfMul x a ^^^ gfMul y a := by
  rw [gfMul_comm, gfMul_comm x a, gfMul_comm y a]
  exact gfMul_xor_distrib ha hx hy

theorem gfInv_one : gfInv 1 = 1 := by decide

theorem gfDiv_one {a : Nat} (ha : a < 256) : gfDiv a 1 = a := by
  rw [gfDiv, gfInv_one, gfMul_one ha]

/-! ## Polynomial engine

Polynomials are lists of field elements, index 0 = highest-degree coefficient
(big-endian), as in the spec's data model. -/

/-- Polynomial addition: element-wise xor, right-aligned to the longer
length. -/
def polyAdd (p q : List Nat) : List Nat :=
  let n := max p.length q.length
  (List.replicate (n - p.length) 0 ++ p).zipWith (· ^^^ ·)
    (List.replicate (n - q.length) 0 ++ q)

/-- Scale every coefficient by the field element `c`. -/
def polyScale (p : List Nat) (c : Nat) : List Nat := p.map fun z => gfMul z c

/-- Polynomial multiplication (convolution with field multiply/add), written
by peeling the leading coefficient: `(a·x^deg + p)·q = a·q·x^deg + p·q`.
Result length is `len(p)+len(q)-1`. -/
def polyMul : List Nat → List Nat → List Nat
  | [], _ => []
  | a :: p, q => polyAdd (polyScale q a ++ List.replicate p.length 0) (polyMul p q)

/-- One step of Horner evaluation. -/
def evalStep (x acc c : Nat) : Nat := gfMul acc x ^^^ c

/-- Horner evaluation of a polynomial at the point `x`. -/
def polyEval (p : List Nat) (x : Nat) : Nat := p.foldl (evalStep x) 0

/-- The generator polynomial of degree `nsym`: the product of `(x - gen^i)`
for `i` below `nsym` (subtraction is xor, so each factor is `[1, gen^i]`). -/
def generatorPoly (nsym : Nat) : List Nat :=
  (List.range nsym).foldl (fun g i => polyMul g [1, gfExp i]) [1]

/-- Fuelled polynomial long division: while the dividend is at least as long
as the divisor, cancel its leading term with a field-scaled, shifted copy of
the divisor (xor subtraction) and drop the now-zero leading coefficient.
The fuel bounds the number of cancellation steps. -/
def polyDivModAux : Nat → List Nat → List Nat → List Nat × List Nat
  | 0, p, _ => ([], p)
  | fuel + 1, p, d =>
    match p with
    | [] => ([], [])
    | a :: p' =>
      if p'.length + 1 < d.length then ([], a :: p')
      else
        let c := gfDiv a (d.headD 0)
        let sub := polyScale d.tail c ++ List.replicate (p'.length - d.tail.length) 0
        let p2 := p'.zipWith (· ^^^ ·) sub
        let qr := polyDivModAux fuel p2 d
        (c :: qr.1, qr.2)

/-- Polynomial long division producing (quotient, remainder). -/
def polyDivMod (p d : List Nat) : List Nat × List Nat :=
  polyDivModAux p.length p d

/-! ### Structural lemmas: lengths and coefficient bounds -/

/-- All coefficients are bytes (below 256). -/
def Bytes (p : List Nat) : Prop := ∀ c ∈ p, c < 256

theorem bytes_nil : Bytes [] := by intro c hc; cases hc

theorem bytes_cons {a : Nat} {p : List Nat} (ha : a < 256) (hp : Bytes p) :
    Bytes (a :: p) := by
  intro c hc
  rcases List.mem_cons.1 hc with h | h
  · omega
  · exact hp c h

theorem bytes_replicate (n : Nat) : Bytes (List.replicate n 0) := by
  intro c hc
  have := List.eq_of_mem_replicate hc
  omega

theorem bytes_append {p q : List Nat} (hp : Bytes p) (hq : Bytes q) :
    Bytes (p ++ q) := by
  intro c hc
  rcases List.mem_append.1 hc with h | h
  · exact hp c h
  · exact hq c h

theorem bytes_polyScale (p : List Nat) (c : Nat) : Bytes (polyScale p c) := by
  intro z hz
  rcases List.mem_map.1 hz with ⟨w, _, hw⟩
  rw [← hw]
  exact gfMul_lt _ _

theorem bytes_zipWith_xor {p q : List Nat} (hp : Bytes p) (hq : Bytes q) :
    Bytes (p.zipWith (· ^^^ ·) q) := by
  induction p generalizing q with
  | nil => intro c hc; cases hc
  | cons a p ih =>
    cases q with
    | nil => intro c hc; cases hc
    | cons b q =>
      have ha : a < 256 := hp a (List.mem_cons_self _ _)
      have hb : b < 256 := hq b (List.mem_cons_self _ _)
      have hp' : Bytes p := fun c hc => hp c (List.mem_cons_of_mem _ hc)
      have hq' : Bytes q := fun c hc => hq c (List.mem_cons_of_mem _ hc)
      exact bytes_cons (xor_lt_256 ha hb) (ih hp' hq')

theorem bytes_polyAdd {p q : List Nat} (hp : Bytes p) (hq : Bytes q) :
    Bytes (polyAdd p q) :=
  bytes_zipWith_xor (bytes_append (bytes_replicate _) hp)
    (bytes_append (bytes_replicate _) hq)

theorem bytes_polyMul {p q : List Nat} (hp : Bytes p) (hq : Bytes q) :
    Bytes (polyMul p q) := by
  induction p with
  | nil => exact bytes_nil
  | cons a p ih =>
    have hp' : Bytes p := fun c hc => hp c (List.mem_cons_of_mem _ hc)
    exact bytes_polyAdd
      (bytes_append (bytes_polyScale _ _) (bytes_replicate _)) (ih hp')

theorem polyAdd_length (p q : List Nat) :
    (polyAdd p q).length = max p.length q.length := by
  simp [polyAdd]

theorem polyMul_length {p : List Nat} (q : List Nat) (hp : p ≠ []) :
    (polyMul p q).length = p.length + q.length - 1 := by
  induction p with
  | nil => exact absurd rfl hp
  | cons a p ih =>
    by_cases hp' : p = []
    · subst hp'
      simp [polyMul, polyAdd_length, polyScale]
    · simp only [polyMul, polyAdd_length, List.length_append, List.length_map,
        List.length_replicate, polyScale, ih hp']
      have : 1 ≤ p.length := List.length_pos.2 hp'
      simp [List.length_cons]
      omega

/-! ### Evaluation lemmas -/

/-- Field power by iterated multiplication (proof-side helper for reasoning
about Horner evaluation; the algorithms themselves use the table-based
`gfPow`). -/
def gfNpow (x : Nat) : Nat → Nat
  | 0 => 1
  | n + 1 => gfMul x (gfNpow x n)

theorem gfNpow_lt (x n : Nat) : gfNpow x n < 256 := by
  cases n with
  | zero => norm_num [gfNpow]
  | succ n => exact gfMul_lt _ _

theorem foldl_evalStep_lt {x : Nat} {p : List Nat} (hp : Bytes p) :
    ∀ {a : Nat}, a < 256 → p.foldl (evalStep x) a < 256 := by
  induction p with
  | nil => intro a ha; exact ha
  | cons c p ih =>
    intro a ha
    have hc : c < 256 := hp c (List.mem_cons_self _ _)
    have hp' : Bytes p := fun z hz => hp z (List.mem_cons_of_mem _ hz)
    exact ih hp' (xor_lt_256 (gfMul_lt _ _) hc)

theorem polyEval_lt {p : List Nat} (hp : Bytes p) (x : Nat) : polyEval p x < 256 :=
  foldl_evalStep_lt hp (by norm_num)

theorem foldl_evalStep_init {x : Nat} (hx : x < 256) :
    ∀ (l : List Nat), Bytes l → ∀ {a : Nat}, a < 256 →
      l.foldl (evalStep x) a =
        gfMul a (gfNpow x l.length) ^^^ l.foldl (evalStep x) 0 := by
  intro l
  induction l with
  | nil =>
    intro _ a ha
    show a = gfMul a (gfNpow x 0) ^^^ a * 0
    simp [gfNpow, gfMul_one ha]
  | cons c l ih =>
    intro hl a ha
    have hc : c < 256 := hl c (List.mem_cons_self _ _)
    have hl' : Bytes l := fun z hz => hl z (List.mem_cons_of_mem _ hz)
    have hstep : ∀ b : Nat, evalStep x b c = gfMul b x ^^^ c := fun _ => rfl
    have h0 : evalStep x 0 c = c := by
      rw [hstep, zero_gfMul, Nat.zero_xor]
    show List.foldl (evalStep x) (evalStep x a c) l =
      gfMul a (gfNpow x (l.length + 1)) ^^^ List.foldl (evalStep x) (evalStep x 0 c) l
    rw [h0, ih hl' (show evalStep x a c < 256 from xor_lt_256 (gfMul_lt _ _) hc),
      ih hl' hc, hstep]
    have hdist : gfMul (gfMul a x ^^^ c) (gfNpow x l.length) =
        gfMul (gfMul a x) (gfNpow x l.length) ^^^ gfMul c (gfNpow x l.length) :=
      xor_gfMul_distrib (gfNpow_lt _ _) (gfMul_lt _ _) hc
    rw [hdist]
    have hpow : gfMul (gfMul a x) (gfNpow x l.length) =
        gfMul a (gfNpow x (l.length + 1)) := by
      show _ = gfMul a (gfMul x (gfNpow x l.length))
      exact gfMul_assoc a x (gfNpow x l.length) ha hx (gfNpow_lt _ _)
    rw [hpow, Nat.xor_assoc]

theorem polyEval_cons {c : Nat} {l : List Nat} (hc : c < 256) (hl : Bytes l)
    {x : Nat} (hx : x < 256) :
    polyEval (c :: l) x = gfMul c (gfNpow x l.length) ^^^ polyEval l x := by
  show List.foldl (evalStep x) (evalStep x 0 c) l = _
  have h0 : evalStep x 0 c = c := by
    show gfMul 0 x ^^^ c = c
    rw [zero_gfMul, Nat.zero_xor]
  rw [h0]
  exact foldl_evalStep_init hx l hl hc

theorem polyEval_append {p q : List Nat} (hp : Bytes p) (hq : Bytes q)
    {x : Nat} (hx : x < 256) :
    polyEval (p ++ q) x =
      gfMul (polyEval p x) (gfNpow x q.length) ^^^ polyEval q x := by
  show (p ++ q).foldl (evalStep x) 0 = _
  rw [List.foldl_append]
  exact foldl_evalStep_init hx q hq (polyEval_lt hp x)

theorem polyEval_replicate_zero (n x : Nat) :
    polyEval (List.replicate n 0) x = 0 := by
  induction n with
  | zero => rfl
  | succ m ih =>
    show (List.replicate (m + 1) 0).foldl (evalStep x) 0 = 0
    rw [List.replicate_succ]
    show (List.replicate m 0).foldl (evalStep x) (evalStep x 0 0) = 0
    have h0 : evalStep x 0 0 = 0 := by
      show gfMul 0 x ^^^ 0 = 0
      rw [zero_gfMul]
      rfl
    rw [h0]
    exact ih

theorem polyEval_append_zeros {p : List Nat} (hp : Bytes p) (n : Nat)
    {x : Nat} (hx : x < 256) :
    polyEval (p ++ List.replicate n 0) x = gfMul (polyEval p x) (gfNpow x n) := by
  rw [polyEval_append hp (bytes_replicate n) hx, polyEval_replicate_zero,
    List.length_replicate, Nat.xor_zero]

theorem polyEval_replicate_zero_append (k : Nat) (p : List Nat) (x : Nat) :
    polyEval (List.replicate k 0 ++ p) x = polyEval p x := by
  show (List.replicate k 0 ++ p).foldl (evalStep x) 0 = _
  rw [List.foldl_append]
  have h0 : (List.replicate k 0).foldl (evalStep x) 0 = 0 := polyEval_replicate_zero k x
  rw [h0]
  rfl

theorem foldl_evalStep_zipWith_xor {x : Nat} (hx : x < 256) :
    ∀ (l1 l2 : List Nat), l1.length = l2.length → Bytes l1 → Bytes l2 →
      ∀ {a1 a2 : Nat}, a1 < 256 → a2 < 256 →
        (l1.zipWith (· ^^^ ·) l2).foldl (evalStep x) (a1 ^^^ a2) =
          l1.foldl (evalStep x) a1 ^^^ l2.foldl (evalStep x) a2 := by
  intro l1
  induction l1 with
  | nil =>
    intro l2 hlen _ _ a1 a2 _ _
    have : l2 = [] := List.eq_nil_of_length_eq_zero hlen.symm
    subst this
    rfl
  | cons c1 l1 ih =>
    intro l2 hlen h1 h2 a1 a2 ha1 ha2
    cases l2 with
    | nil => cases hlen
    | cons c2 l2 =>
      have hc1 : c1 < 256 := h1 c1 (List.mem_cons_self _ _)
      have hc2 : c2 < 256 := h2 c2 (List.mem_cons_self _ _)
      have h1' : Bytes l1 := fun z hz => h1 z (List.mem_cons_of_mem _ hz)
      have h2' : Bytes l2 := fun z hz => h2 z (List.mem_cons_of_mem _ hz)
      have hlen' : l1.length = l2.length := by
        simpa using hlen
      show (l1.zipWith (· ^^^ ·) l2).foldl (evalStep x)
          (evalStep x (a1 ^^^ a2) (c1 ^^^ c2)) = _
      have hkey : evalStep x (a1 ^^^ a2) (c1 ^^^ c2) =
          evalStep x a1 c1 ^^^ evalStep x a2 c2 := by
        show gfMul (a1 ^^^ a2) x ^^^ (c1 ^^^ c2) =
          (gfMul a1 x ^^^ c1) ^^^ (gfMul a2 x ^^^ c2)
        rw [xor_gfMul_distrib hx ha1 ha2]
        simp [Nat.xor_assoc, Nat.xor_comm, xor_left_comm]
      rw [hkey]
      exact ih l2 hlen' h1' h2'
        (xor_lt_256 (gfMul_lt _ _) hc1) (xor_lt_256 (gfMul_lt _ _) hc2)

theorem polyEval_zipWith_xor {l1 l2 : List Nat} (hlen : l1.length = l2.length)
    (h1 : Bytes l1) (h2 : Bytes l2) {x : Nat} (hx : x < 256) :
    polyEval (l1.zipWith (· ^^^ ·) l2) x = polyEval l1 x ^^^ polyEval l2 x := by
  have := @foldl_evalStep_zipWith_xor x hx l1 l2 hlen h1 h2 0 0
    (by norm_num) (by norm_num)
  simpa [polyEval] using this

theorem polyEval_polyAdd {p q : List Nat} (hp : Bytes p) (hq : Bytes q)
    {x : Nat} (hx : x < 256) :
    polyEval (polyAdd p q) x = polyEval p x ^^^ polyEval q x := by
  unfold polyAdd
  have hlen : (List.replicate (max p.length q.length - p.length) 0 ++ p).length =
      (List.replicate (max p.length q.length - q.length) 0 ++ q).length := by
    simp
  rw [polyEval_zipWith_xor hlen
    (bytes_append (bytes_replicate _) hp) (bytes_append (bytes_replicate _) hq) hx,
    polyEval_replicate_zero_append, polyEval_replicate_zero_append]

theorem polyEval_polyScale {p : List Nat} (hp : Bytes p) {c : Nat} (hc : c < 256)
    {x : Nat} (hx : x < 256) :
    polyEval (polyScale p c) x = gfMul (polyEval p x) c := by
  induction p with
  | nil =>
    show polyEval [] x = gfMul (polyEval [] x) c
    show (0 : Nat) = gfMul 0 c
    rw [zero_gfMul]
  | cons a p ih =>
    have ha : a < 256 := hp a (List.mem_cons_self _ _)
    have hp' : Bytes p := fun z hz => hp z (List.mem_cons_of_mem _ hz)
    show polyEval (gfMul a c :: polyScale p c) x = _
    rw [polyEval_cons (gfMul_lt _ _) (bytes_polyScale _ _) hx,
      polyEval_cons ha hp' hx, ih hp']
    rw [xor_gfMul_distrib hc (gfMul_lt _ _) (polyEval_lt hp' x)]
    have : (polyScale p c).length = p.length := by simp [polyScale]
    rw [this]
    congr 1
    rw [gfMul_assoc a (gfNpow x p.length) c ha (gfNpow_lt _ _) hc,
      gfMul_assoc a c (gfNpow x p.length) ha hc (gfNpow_lt _ _),
      gfMul_comm (gfNpow x p.length) c]

theorem polyEval_polyMul {p q : List Nat} (hp : Bytes p) (hq : Bytes q)
    {x : Nat} (hx : x < 256) :
    polyEval (polyMul p q) x = gfMul (polyEval p x) (polyEval q x) := by
  induction p with
  | nil =>
    show (0 : Nat) = gfMul 0 _
    rw [zero_gfMul]
  | cons a p ih =>
    have ha : a < 256 := hp a (List.mem_cons_self _ _)
    have hp' : Bytes p := fun z hz => hp z (List.mem_cons_of_mem _ hz)
    show polyEval (polyAdd (polyScale q a ++ List.replicate p.length 0)
      (polyMul p q)) x = _
    rw [polyEval_polyAdd
      (bytes_append (bytes_polyScale _ _) (bytes_replicate _))
      (bytes_polyMul hp' hq) hx]
    rw [polyEval_append_zeros (bytes_polyScale _ _) _ hx]
    rw [polyEval_polyScale hq ha hx, ih hp']
    rw [polyEval_cons ha hp' hx]
    rw [xor_gfMul_distrib (polyEval_lt hq x) (gfMul_lt _ _) (polyEval_lt hp' x)]
    congr 1
    rw [gfMul_assoc a (gfNpow x p.length) (polyEval q x) ha (gfNpow_lt _ _)
      (polyEval_lt hq x)]
    rw [gfMul_comm (polyEval q x) a,
      gfMul_assoc a (polyEval q x) (gfNpow x p.length) ha (polyEval_lt hq x)
        (gfNpow_lt _ _)]
    congr 1
    exact gfMul_comm _ _

/-! ### Division correctness (at the level of evaluation) -/

theorem gfNpow_add (x i j : Nat) (hx : x < 256) :
    gfNpow x (i + j) = gfMul (gfNpow x i) (gfNpow x j) := by
  induction i with
  | zero =>
    rw [Nat.zero_add]
    show gfNpow x j = gfMul 1 (gfNpow x j)
    rw [one_gfMul (gfNpow_lt _ _)]
  | succ n ih =>
    have hadd : n + 1 + j = n + j + 1 := by omega
    rw [hadd]
    show gfMul x (gfNpow x (n + j)) = gfMul (gfMul x (gfNpow x n)) (gfNpow x j)
    rw [ih, gfMul_assoc x (gfNpow x n) (gfNpow x j) hx (gfNpow_lt _ _) (gfNpow_lt _ _)]

theorem bytes_polyDivModAux (fuel : Nat) :
    ∀ (p d : List Nat), Bytes p →
      Bytes (polyDivModAux fuel p d).1 ∧ Bytes (polyDivModAux fuel p d).2 := by
  induction fuel with
  | zero => intro p d hp; exact ⟨bytes_nil, hp⟩
  | succ f ih =>
    intro p d hp
    match p with
    | [] => exact ⟨bytes_nil, bytes_nil⟩
    | a :: p' =>
      show Bytes (polyDivModAux (f + 1) (a :: p') d).1 ∧ _
      rw [polyDivModAux]
      by_cases hcond : p'.length + 1 < d.length
      · rw [if_pos hcond]
        exact ⟨bytes_nil, hp⟩
      · rw [if_neg hcond]
        have hp' : Bytes p' := fun z hz => hp z (List.mem_cons_of_mem _ hz)
        have hp2 : Bytes (p'.zipWith (· ^^^ ·)
            (polyScale d.tail (gfDiv a (d.headD 0)) ++
              List.replicate (p'.length - d.tail.length) 0)) :=
          bytes_zipWith_xor hp'
            (bytes_append (bytes_polyScale _ _) (bytes_replicate _))
        have := ih _ d hp2
        exact ⟨bytes_cons (gfMul_lt _ _) this.1, this.2⟩

theorem polyDivModAux_quot_length {dt : List Nat} :
    ∀ (fuel : Nat) (p : List Nat), p.length ≤ fuel →
      (polyDivModAux fuel p (1 :: dt)).1.length = p.length - dt.length := by
  intro fuel
  induction fuel with
  | zero =>
    intro p hlen
    have : p = [] := List.eq_nil_of_length_eq_zero (by omega)
    subst this
    simp [polyDivModAux]
  | succ f ih =>
    intro p hlen
    match p with
    | [] => simp [polyDivModAux]
    | a :: p' =>
      rw [polyDivModAux]
      by_cases hcond : p'.length + 1 < (1 :: dt).length
      · rw [if_pos hcond]
        simp at hcond ⊢
        omega
      · rw [if_neg hcond]
        simp only [List.length_cons] at hcond hlen
        have hzip : (p'.zipWith (· ^^^ ·)
            (polyScale (1 :: dt).tail (gfDiv a ((1 :: dt).headD 0)) ++
              List.replicate (p'.length - (1 :: dt).tail.length) 0)).length
            = p'.length := by
          simp [polyScale, List.length_zipWith]
          omega
        have := ih _ (by rw [hzip]; omega)
        simp only [List.length_cons, this, hzip]
        simp at hcond
        omega

theorem polyDivModAux_eval {x : Nat} (hx : x < 256) {dt : List Nat}
    (hdt : Bytes dt) :
    ∀ (fuel : Nat) (p : List Nat), Bytes p → p.length ≤ fuel →
      polyEval p x =
        gfMul (polyEval (polyDivModAux fuel p (1 :: dt)).1 x)
            (polyEval (1 :: dt) x) ^^^
          polyEval (polyDivModAux fuel p (1 :: dt)).2 x := by
  intro fuel
  induction fuel with
  | zero =>
    intro p hp hlen
    have : p = [] := List.eq_nil_of_length_eq_zero (by omega)
    subst this
    show (0 : Nat) = gfMul (polyEval [] x) _ ^^^ polyEval [] x
    show (0 : Nat) = gfMul 0 _ ^^^ 0
    rw [zero_gfMul, Nat.zero_xor]
  | succ f ih =>
    intro p hp hlen
    match p with
    | [] =>
      show (0 : Nat) = gfMul (polyEval [] x) _ ^^^ polyEval [] x
      show (0 : Nat) = gfMul 0 _ ^^^ 0
      rw [zero_gfMul, Nat.zero_xor]
    | a :: p' =>
      rw [polyDivModAux]
      have ha : a < 256 := hp a (List.mem_cons_self _ _)
      have hp' : Bytes p' := fun z hz => hp z (List.mem_cons_of_mem _ hz)
      by_cases hcond : p'.length + 1 < (1 :: dt).length
      · rw [if_pos hcond]
        show polyEval (a :: p') x = gfMul (polyEval [] x) _ ^^^ polyEval (a :: p') x
        show polyEval (a :: p') x = gfMul 0 _ ^^^ polyEval (a :: p') x
        rw [zero_gfMul, Nat.zero_xor]
      · rw [if_neg hcond]
        simp only [List.length_cons] at hcond hlen
        have hdtlen : dt.length ≤ p'.length := by
          simp at hcond
          omega
        -- abbreviations
        have hhead : (1 :: dt).headD 0 = 1 := rfl
        have htail : (1 :: dt).tail = dt := rfl
        rw [hhead, htail, gfDiv_one ha]
        set m := p'.length - dt.length with hm
        set sub := polyScale dt a ++ List.replicate m 0 with hsub
        set p2 := p'.zipWith (· ^^^ ·) sub with hp2def
        have hsublen : sub.length = p'.length := by
          simp [hsub, polyScale]
          omega
        have hsubbytes : Bytes sub :=
          bytes_append (bytes_polyScale _ _) (bytes_replicate _)
        have hp2bytes : Bytes p2 := bytes_zipWith_xor hp' hsubbytes
        have hp2len : p2.length = p'.length := by
          simp [hp2def, List.length_zipWith, hsublen]
        have hrec := ih p2 hp2bytes (by omega)
        have hqlen : (polyDivModAux f p2 (1 :: dt)).1.length = m := by
          rw [polyDivModAux_quot_length f p2 (by omega), hp2len]
        set q := (polyDivModAux f p2 (1 :: dt)).1 with hq
        set r := (polyDivModAux f p2 (1 :: dt)).2 with hr
        have hqbytes : Bytes q := (bytes_polyDivModAux f p2 (1 :: dt) hp2bytes).1
        -- evaluations
        have hevald : polyEval (1 :: dt) x =
            gfNpow x dt.length ^^^ polyEval dt x := by
          rw [polyEval_cons (by norm_num) hdt hx, one_gfMul (gfNpow_lt _ _)]
        have hevalsub : polyEval sub x =
            gfMul (gfMul (polyEval dt x) a) (gfNpow x m) := by
          rw [hsub, polyEval_append_zeros (bytes_polyScale _ _) _ hx,
            polyEval_polyScale hdt ha hx]
        have hevalp2 : polyEval p2 x = polyEval p' x ^^^ polyEval sub x := by
          rw [hp2def, polyEval_zipWith_xor hsublen.symm hp' hsubbytes hx]
        have hconsq : polyEval (a :: q) x =
            gfMul a (gfNpow x m) ^^^ polyEval q x := by
          rw [polyEval_cons ha hqbytes hx, hqlen]
        show polyEval (a :: p') x = gfMul (polyEval (a :: q) x) (polyEval (1 :: dt) x)
          ^^^ polyEval r x
        rw [hconsq, polyEval_cons ha hp' hx]
        rw [xor_gfMul_distrib (polyEval_lt (bytes_cons (by norm_num) hdt) x)
          (gfMul_lt _ _) (polyEval_lt hqbytes x)]
        rw [Nat.xor_assoc, ← hrec, hevalp2, hevalsub, hevald]
        rw [gfMul_xor_distrib (gfMul_lt _ _) (gfNpow_lt _ _) (polyEval_lt hdt x)]
        have hk1 : gfMul (gfMul a (gfNpow x m)) (gfNpow x dt.length) =
            gfMul a (gfNpow x p'.length) := by
          rw [gfMul_assoc a (gfNpow x m) (gfNpow x dt.length) ha (gfNpow_lt _ _)
            (gfNpow_lt _ _), ← gfNpow_add x m dt.length hx]
          have : m + dt.length = p'.length := by omega
          rw [this]
        have hk2 : gfMul (gfMul a (gfNpow x m)) (polyEval dt x) =
            gfMul (gfMul (polyEval dt x) a) (gfNpow x m) := by
          rw [gfMul_comm (polyEval dt x) a,
            gfMul_assoc a (gfNpow x m) (polyEval dt x) ha (gfNpow_lt _ _)
              (polyEval_lt hdt x),
            gfMul_assoc a (polyEval dt x) (gfNpow x m) ha (polyEval_lt hdt x)
              (gfNpow_lt _ _), gfMul_comm (gfNpow x m) (polyEval dt x)]
        rw [hk1, hk2]
        simp [Nat.xor_assoc, Nat.xor_comm, xor_left_comm, Nat.xor_self,
          Nat.xor_zero, Nat.zero_xor, Nat.xor_cancel_left, Nat.xor_cancel_right]

/-! ### Generator polynomial: shape and roots -/

theorem polyAdd_of_lt {p q : List Nat} (h : q.length < p.length) :
    polyAdd p q =
      p.zipWith (· ^^^ ·) (List.replicate (p.length - q.length) 0 ++ q) := by
  unfold polyAdd
  have hmax : max p.length q.length = p.length := Nat.max_eq_left (Nat.le_of_lt h)
  show List.zipWith _ (List.replicate (max p.length q.length - p.length) 0 ++ p)
    (List.replicate (max p.length q.length - q.length) 0 ++ q) = _
  rw [hmax, Nat.sub_self]
  rfl

theorem generatorPoly_step (n : Nat) :
    generatorPoly (n + 1) = polyMul (generatorPoly n) [1, gfExp n] := by
  unfold generatorPoly
  rw [List.range_succ, List.foldl_append]
  rfl

theorem generatorPoly_cons :
    ∀ n : Nat, ∃ t : List Nat,
      generatorPoly n = 1 :: t ∧ t.length = n ∧ Bytes t := by
  intro n
  induction n with
  | zero => exact ⟨[], rfl, rfl, bytes_nil⟩
  | succ n ih =>
    obtain ⟨t, ht, hlen, hbt⟩ := ih
    rw [generatorPoly_step, ht]
    have he : gfExp n < 256 := gfExp_lt n
    have hscale : polyScale [1, gfExp n] 1 = [1, gfExp n] := by
      simp [polyScale, gfMul_one (show (1 : Nat) < 256 by norm_num), gfMul_one he]
    show ∃ t', polyAdd (polyScale [1, gfExp n] 1 ++ List.replicate t.length 0)
      (polyMul t [1, gfExp n]) = 1 :: t' ∧ t'.length = n + 1 ∧ Bytes t'
    rw [hscale]
    set B := polyMul t [1, gfExp n] with hB
    have hBlen : B.length ≤ t.length + 1 := by
      by_cases htnil : t = []
      · subst htnil; simp [hB, polyMul]
      · rw [hB, polyMul_length _ htnil]
        simp
    have hBbytes : Bytes B :=
      bytes_polyMul hbt (bytes_cons (by norm_num) (bytes_cons he bytes_nil))
    have hAlen : ([1, gfExp n] ++ List.replicate t.length 0).length = t.length + 2 := by
      simp
    have hlonger : B.length < ([1, gfExp n] ++ List.replicate t.length 0).length := by
      rw [hAlen]; omega
    rw [polyAdd_of_lt hlonger, hAlen]
    have hsplit : List.replicate (t.length + 2 - B.length) 0 ++ B =
        0 :: (List.replicate (t.length + 1 - B.length) 0 ++ B) := by
      have : t.length + 2 - B.length = (t.length + 1 - B.length) + 1 := by omega
      rw [this, List.replicate_succ]
      rfl
    rw [hsplit]
    show ∃ t', (1 ^^^ 0) :: List.zipWith (· ^^^ ·) (gfExp n :: List.replicate t.length 0)
      (List.replicate (t.length + 1 - B.length) 0 ++ B) = 1 :: t' ∧ _ ∧ _
    refine ⟨_, rfl, ?_, ?_⟩
    · rw [List.length_zipWith]
      simp
      omega
    · exact bytes_zipWith_xor (bytes_cons he (bytes_replicate _))
        (bytes_append (bytes_replicate _) hBbytes)

theorem generatorPoly_length (n : Nat) : (generatorPoly n).length = n + 1 := by
  obtain ⟨t, ht, hlen, _⟩ := generatorPoly_cons n
  rw [ht]
  simp [hlen]

theorem bytes_generatorPoly (n : Nat) : Bytes (generatorPoly n) := by
  obtain ⟨t, ht, _, hbt⟩ := generatorPoly_cons n
  rw [ht]
  exact bytes_cons (by norm_num) hbt

theorem polyEval_linear_factor {e x : Nat} (he : e < 256) (hx : x < 256) :
    polyEval [1, e] x = x ^^^ e := by
  show evalStep x (evalStep x 0 1) e = x ^^^ e
  have h1 : evalStep x 0 1 = 1 := by
    show gfMul 0 x ^^^ 1 = 1
    rw [zero_gfMul, Nat.zero_xor]
  rw [h1]
  show gfMul 1 x ^^^ e = x ^^^ e
  rw [one_gfMul hx]

theorem generatorPoly_root {n i : Nat} (hi : i < n) :
    polyEval (generatorPoly n) (gfExp i) = 0 := by
  induction n with
  | zero => omega
  | succ n ih =>
    rw [generatorPoly_step]
    rw [polyEval_polyMul (bytes_generatorPoly n)
      (bytes_cons (by norm_num) (bytes_cons (gfExp_lt n) bytes_nil)) (gfExp_lt i)]
    rcases Nat.lt_or_ge i n with hlt | hge
    · rw [ih hlt, zero_gfMul]
    · have : i = n := by omega
      subst this
      rw [polyEval_linear_factor (gfExp_lt i) (gfExp_lt i), Nat.xor_self,
        gfMul_zero]

/-! ## Encoder (spec §4.3)

Modelled from the spec: validate `k ≥ 1`, `nsym` even and `≥ 2`,
`k + nsym ≤ 255`; pad the message with `nsym` zero low-order coefficients,
divide by the generator polynomial, append the remainder (systematic code). -/

/-- Systematic Reed–Solomon encoding. -/
def encode (msg : List Nat) (nsym : Nat) : Except RSError (List Nat) :=
  if 1 ≤ msg.length ∧ 2 ≤ nsym ∧ nsym % 2 = 0 ∧ msg.length + nsym ≤ 255 then
    .ok (msg ++ (polyDivMod (msg ++ List.replicate nsym 0) (generatorPoly nsym)).2)
  else
    .error .InvalidParameters

/-! ## Decoder (spec §4.4–4.5)

Modelled from the spec: syndromes, erasure-locator seeding, iterative
(Berlekamp–Massey style) locator refinement with discrepancies, root finding
by evaluating the locator at inverse generator powers, Forney magnitudes from
the error-evaluator polynomial and the locator's formal derivative
(odd-coefficient sub-polynomial), followed by a mandatory syndrome recheck. -/

/-- Syndromes `S_i = eval(received, gen^i)` for `i` below `nsym`. -/
def syndromes (received : List Nat) (nsym : Nat) : List Nat :=
  (List.range nsym).map fun i => polyEval received (gfExp i)

/-- Erasure locator: product of `(1 - gen^c · x)` over the coefficient
positions `c` of the known erasures (big-endian factor `[gen^c, 1]`). -/
def erasureLocator (coefPos : List Nat) : List Nat :=
  coefPos.foldl (fun acc c => polyMul acc [gfExp c, 1]) [1]

/-- The discrepancy of the current locator against the syndromes at
iteration index `kk`. -/
def bmDelta (synd errLoc : List Nat) (kk : Nat) : Nat :=
  (List.range (errLoc.length - 1)).foldl
    (fun delta i =>
      delta ^^^ gfMul (errLoc.getD (errLoc.length - 1 - (i + 1)) 0)
        (synd.getD (kk - (i + 1)) 0))
    (synd.getD kk 0)

/-- One iteration of the locator refinement: extend the shift register and,
on a nonzero discrepancy, update the locator (with a swap/normalisation when
the register outgrew the locator). -/
def bmStep (synd : List Nat) (kk : Nat) (st : List Nat × List Nat) :
    List Nat × List Nat :=
  let errLoc := st.1
  let oldLoc := st.2 ++ [0]
  let delta := bmDelta synd errLoc kk
  if delta = 0 then (errLoc, oldLoc)
  else if errLoc.length < oldLoc.length then
    let newLoc := polyScale oldLoc delta
    let oldLoc2 := polyScale errLoc (gfInv delta)
    (polyAdd newLoc (polyScale oldLoc2 delta), oldLoc2)
  else
    (polyAdd errLoc (polyScale oldLoc delta), oldLoc)

/-- The iterative locator refinement: seeded with the erasure locator, run
for the remaining `nsym - eraseCount` iterations. -/
def bmLoop (synd : List Nat) (nsym eraseCount : Nat) (initLoc : List Nat) :
    List Nat :=
  ((List.range (nsym - eraseCount)).foldl
    (fun st i => bmStep synd (eraseCount + i) st) (initLoc, initLoc)).1

/-- Error-evaluator polynomial: syndrome polynomial times locator, truncated
to degree below `nsym` (low-order `nsym` coefficients). -/
def errorEvaluator (synd errLoc : List Nat) (nsym : Nat) : List Nat :=
  let prod := polyMul synd.reverse errLoc
  prod.drop (prod.length - nsym)

/-- Evaluation of the locator's formal derivative at `x`: in characteristic
2 only the odd-degree coefficients survive. -/
def locatorDerivEval (errLoc : List Nat) (x : Nat) : Nat :=
  errLoc.reverse.enum.foldl
    (fun acc jc => if jc.1 % 2 = 1 then acc ^^^ gfMul jc.2 (gfPow x (jc.1 - 1)) else acc)
    0

/-- Apply the Forney magnitude formula at each fault position, xoring the
computed magnitude into the received word. -/
def correctErrata (received synd errLoc errPos : List Nat) : List Nat :=
  let nsym := synd.length
  let ev := errorEvaluator synd errLoc nsym
  errPos.foldl
    (fun cw pos =>
      let coef := received.length - 1 - pos
      let xi := gfExp coef
      let xiInv := gfInv xi
      let y := gfMul xi (polyEval ev xiInv)
      let mag := gfDiv y (locatorDerivEval errLoc xiInv)
      cw.set pos (cw.getD pos 0 ^^^ mag))
    received

/-- Reed–Solomon decoding with optional known-erasure positions. -/
def decode (received erasePos : List Nat) (nsym : Nat) :
    Except RSError (List Nat × Nat × List Nat) :=
  if ¬(nsym + 1 ≤ received.length ∧ received.length ≤ 255) then
    .error .InvalidParameters
  else if erasePos.any fun p => received.length ≤ p then
    .error .InvalidParameters
  else if nsym < erasePos.length then
    .error .TooManyErrors
  else
    let synd := syndromes received nsym
    if synd.all (· == 0) then
      .ok (received.take (received.length - nsym), 0, [])
    else
      let eraseCoef := erasePos.map fun p => received.length - 1 - p
      let errLoc := (bmLoop synd nsym erasePos.length
        (erasureLocator eraseCoef)).dropWhile (· == 0)
      let errs := errLoc.length - 1
      if nsym < (errs - erasePos.length) * 2 + erasePos.length then
        .error .TooManyErrors
      else
        let errPos := (List.range received.length).filterMap fun i =>
          if polyEval errLoc (gfInv (gfExp i)) == 0 then
            some (received.length - 1 - i)
          else none
        if errPos.length ≠ errs then
          .error .UncorrectableCodeword
        else
          let corrected := correctErrata received synd errLoc errPos
          if (syndromes corrected nsym).all (· == 0) then
            .ok (corrected.take (corrected.length - nsym), errPos.length,
              errPos.reverse)
          else
            .error .CorrectionFailed

/-! ### Remainder length and the shape of encoded words -/

theorem polyDivModAux_rem_short (dt : List Nat) :
    ∀ (fuel : Nat) (p : List Nat), p.length ≤ dt.length →
      (polyDivModAux fuel p (1 :: dt)).2 = p := by
  intro fuel p hle
  cases fuel with
  | zero => rfl
  | succ f =>
    match p with
    | [] => rfl
    | a :: p' =>
      rw [polyDivModAux]
      have hcond : p'.length + 1 < (1 :: dt).length := by
        simp only [List.length_cons]
        simp only [List.length_cons] at hle
        omega
      rw [if_pos hcond]

theorem polyDivModAux_rem_length {dt : List Nat} :
    ∀ (fuel : Nat) (p : List Nat), p.length ≤ fuel → dt.length < p.length →
      (polyDivModAux fuel p (1 :: dt)).2.length = dt.length := by
  intro fuel
  induction fuel with
  | zero =>
    intro p hfuel hlen
    omega
  | succ f ih =>
    intro p hfuel hlen
    match p with
    | [] => simp at hlen
    | a :: p' =>
      rw [polyDivModAux]
      have hcond : ¬(p'.length + 1 < (1 :: dt).length) := by
        simp only [List.length_cons]
        simp only [List.length_cons] at hlen
        omega
      rw [if_neg hcond]
      have hzip : (p'.zipWith (· ^^^ ·)
          (polyScale (1 :: dt).tail (gfDiv a ((1 :: dt).headD 0)) ++
            List.replicate (p'.length - (1 :: dt).tail.length) 0)).length
          = p'.length := by
        simp only [List.length_cons] at hlen
        simp [polyScale, List.length_zipWith]
        omega
      rcases Nat.lt_or_ge dt.length p'.length with hgt | hle'
      · have := ih _ (by rw [hzip]; simp only [List.length_cons] at hfuel; omega)
          (by rw [hzip]; exact hgt)
        simpa using this
      · have heq := polyDivModAux_rem_short dt f
          (p'.zipWith (· ^^^ ·)
            (polyScale (1 :: dt).tail (gfDiv a ((1 :: dt).headD 0)) ++
              List.replicate (p'.length - (1 :: dt).tail.length) 0))
          (by rw [hzip]; exact hle')
        simp only [heq]
        simp only [List.length_cons] at hlen
        rw [hzip]
        omega

theorem encode_remainder_length {msg : List Nat} {nsym : Nat}
    (h1 : 1 ≤ msg.length) :
    (polyDivMod (msg ++ List.replicate nsym 0) (generatorPoly nsym)).2.length
      = nsym := by
  obtain ⟨t, ht, hlen, _⟩ := generatorPoly_cons nsym
  rw [polyDivMod, ht]
  rw [polyDivModAux_rem_length _ _ (Nat.le_refl _) (by simp [hlen]; omega), hlen]

/-- C5: for every message satisfying the encoder's preconditions, `encode`
produces a codeword of length exactly `k + nsym` whose first `k` symbols are
the message itself and whose last `nsym` symbols are the parity — the
remainder of dividing the shifted message by the generator polynomial
(systematic encoding). -/
theorem encode_systematic (msg : List Nat) (nsym : Nat)
    (h1 : 1 ≤ msg.length) (h2 : 2 ≤ nsym) (h3 : nsym % 2 = 0)
    (h4 : msg.length + nsym ≤ 255) :
    ∃ par : List Nat,
      encode msg nsym = .ok (msg ++ par) ∧
      par = (polyDivMod (msg ++ List.replicate nsym 0) (generatorPoly nsym)).2 ∧
      par.length = nsym ∧
      (msg ++ par).length = msg.length + nsym ∧
      (msg ++ par).take msg.length = msg ∧
      (msg ++ par).drop msg.length = par := by
  refine ⟨(polyDivMod (msg ++ List.replicate nsym 0) (generatorPoly nsym)).2,
    ?_, rfl, encode_remainder_length h1, ?_, ?_, ?_⟩
  · unfold encode
    rw [if_pos ⟨h1, h2, h3, h4⟩]
  · rw [List.length_append, encode_remainder_length h1]
  · exact List.take_left msg _
  · exact List.drop_left msg _

/-- Witness for C5 at a concrete input (the spec's `b"HELLO"`, `nsym = 4`). -/
theorem encode_systematic_witness :
    ∃ par : List Nat,
      encode [72, 69, 76, 76, 79] 4 = .ok ([72, 69, 76, 76, 79] ++ par) ∧
      par = (polyDivMod ([72, 69, 76, 76, 79] ++ List.replicate 4 0)
        (generatorPoly 4)).2 ∧
      par.length = 4 ∧
      (([72, 69, 76, 76, 79] : List Nat) ++ par).length =
        ([72, 69, 76, 76, 79] : List Nat).length + 4 ∧
      (([72, 69, 76, 76, 79] : List Nat) ++ par).take
        ([72, 69, 76, 76, 79] : List Nat).length = [72, 69, 76, 76, 79] ∧
      (([72, 69, 76, 76, 79] : List Nat) ++ par).drop
        ([72, 69, 76, 76, 79] : List Nat).length = par :=
  encode_systematic [72, 69, 76, 76, 79] 4 (by norm_num) (by norm_num)
    (by norm_num) (by norm_num)

/-- C6: encoding is accepted exactly when `k ≥ 1`, `nsym` even and `≥ 2`,
and `k + nsym ≤ 255`; any violation fails with `InvalidParameters` (the
validation guard precedes all computation). -/
theorem encode_validation (msg : List Nat) (nsym : Nat) :
    ((∃ cw, encode msg nsym = .ok cw) ↔
      (1 ≤ msg.length ∧ 2 ≤ nsym ∧ nsym % 2 = 0 ∧ msg.length + nsym ≤ 255)) ∧
    (encode msg nsym = .error .InvalidParameters ↔
      ¬(1 ≤ msg.length ∧ 2 ≤ nsym ∧ nsym % 2 = 0 ∧ msg.length + nsym ≤ 255)) := by
  by_cases h : 1 ≤ msg.length ∧ 2 ≤ nsym ∧ nsym % 2 = 0 ∧ msg.length + nsym ≤ 255
  · constructor
    · constructor
      · intro _; exact h
      · intro _
        exact ⟨_, by unfold encode; rw [if_pos h]⟩
    · constructor
      · intro hcontra
        unfold encode at hcontra
        rw [if_pos h] at hcontra
        cases hcontra
      · intro hn; exact absurd h hn
  · constructor
    · constructor
      · intro ⟨cw, hcw⟩
        unfold encode at hcw
        rw [if_neg h] at hcw
        cases hcw
      · intro hcontra; exact absurd hcontra h
    · constructor
      · intro _; exact h
      · intro _
        unfold encode
        rw [if_neg h]

/-! ### Round trip without corruption -/

theorem encode_eq {msg : List Nat} {nsym : Nat}
    (h : 1 ≤ msg.length ∧ 2 ≤ nsym ∧ nsym % 2 = 0 ∧ msg.length + nsym ≤ 255) :
    encode msg nsym = .ok (msg ++
      (polyDivMod (msg ++ List.replicate nsym 0) (generatorPoly nsym)).2) := by
  unfold encode
  rw [if_pos h]

theorem bytes_encode_remainder {msg : List Nat} (nsym : Nat) (hb : Bytes msg) :
    Bytes (polyDivMod (msg ++ List.replicate nsym 0) (generatorPoly nsym)).2 :=
  (bytes_polyDivModAux _ _ _ (bytes_append hb (bytes_replicate _))).2

theorem syndromes_encode_zero {msg : List Nat} {nsym : Nat} (hb : Bytes msg)
    (h1 : 1 ≤ msg.length) {i : Nat} (hi : i < nsym) :
    polyEval
      (msg ++ (polyDivMod (msg ++ List.replicate nsym 0) (generatorPoly nsym)).2)
      (gfExp i) = 0 := by
  obtain ⟨t, ht, htlen, hbt⟩ := generatorPoly_cons nsym
  have hbpad : Bytes (msg ++ List.replicate nsym 0) :=
    bytes_append hb (bytes_replicate _)
  have hbr : Bytes (polyDivMod (msg ++ List.replicate nsym 0)
      (generatorPoly nsym)).2 := bytes_encode_remainder nsym hb
  have hrlen : (polyDivMod (msg ++ List.replicate nsym 0)
      (generatorPoly nsym)).2.length = nsym := encode_remainder_length h1
  have hxlt : gfExp i < 256 := gfExp_lt i
  have hroot : polyEval (1 :: t) (gfExp i) = 0 := by
    rw [← ht]
    exact generatorPoly_root hi
  have hdiv := polyDivModAux_eval hxlt hbt
    (msg ++ List.replicate nsym 0).length (msg ++ List.replicate nsym 0)
    hbpad (Nat.le_refl _)
  rw [hroot, gfMul_zero, Nat.zero_xor] at hdiv
  have hpad : polyEval (msg ++ List.replicate nsym 0) (gfExp i) =
      gfMul (polyEval msg (gfExp i)) (gfNpow (gfExp i) nsym) :=
    polyEval_append_zeros hb nsym hxlt
  have hdivmod : polyDivMod (msg ++ List.replicate nsym 0) (generatorPoly nsym) =
      polyDivModAux (msg ++ List.replicate nsym 0).length
        (msg ++ List.replicate nsym 0) (1 :: t) := by
    rw [polyDivMod, ht]
  rw [polyEval_append hb hbr hxlt, hrlen, hdivmod, ← hdiv, ← hpad,
    Nat.xor_self]

theorem decode_when_syndromes_zero {received : List Nat} {nsym : Nat}
    (hlen1 : nsym + 1 ≤ received.length) (hlen2 : received.length ≤ 255)
    (hz : (syndromes received nsym).all (· == 0) = true) :
    decode received [] nsym =
      .ok (received.take (received.length - nsym), 0, []) := by
  unfold decode
  rw [if_neg (fun hc => hc ⟨hlen1, hlen2⟩)]
  rw [show (([] : List Nat).any fun p => received.length ≤ p) = false from rfl]
  rw [if_neg Bool.false_ne_true]
  rw [if_neg (show ¬(nsym < ([] : List Nat).length) by simp)]
  simp only [hz]
  rw [if_pos trivial]

/-- C2: round trip with no corruption: decoding the uncorrupted encoding
of any valid message returns the original message, a corrected count of zero,
and an empty corrected-positions list. -/
theorem decode_encode_roundtrip (msg : List Nat) (nsym : Nat) (cw : List Nat)
    (hb : Bytes msg) (h1 : 1 ≤ msg.length) (h2 : 2 ≤ nsym) (h3 : nsym % 2 = 0)
    (h4 : msg.length + nsym ≤ 255) (hcw : encode msg nsym = .ok cw) :
    decode cw [] nsym = .ok (msg, 0, []) := by
  rw [encode_eq ⟨h1, h2, h3, h4⟩] at hcw
  injection hcw with hcweq
  subst hcweq
  have hrlen : (polyDivMod (msg ++ List.replicate nsym 0)
      (generatorPoly nsym)).2.length = nsym := encode_remainder_length h1
  have hcwlen : (msg ++ (polyDivMod (msg ++ List.replicate nsym 0)
      (generatorPoly nsym)).2).length = msg.length + nsym := by
    rw [List.length_append, hrlen]
  have hz : (syndromes (msg ++ (polyDivMod (msg ++ List.replicate nsym 0)
      (generatorPoly nsym)).2) nsym).all (· == 0) = true := by
    rw [List.all_eq_true]
    intro s hs
    rcases List.mem_map.1 hs with ⟨i, hmem, hval⟩
    have hi : i < nsym := List.mem_range.1 hmem
    rw [← hval, beq_iff_eq]
    exact syndromes_encode_zero hb h1 hi
  rw [decode_when_syndromes_zero (by omega) (by omega) hz]
  rw [hcwlen]
  have htake : msg.length + nsym - nsym = msg.length := by omega
  rw [htake, List.take_left]

/-- Witness for C2 at a concrete input (`b"HELLO"`, `nsym = 4`). -/
theorem decode_encode_roundtrip_witness :
    decode [72, 69, 76, 76, 79, 142, 148, 89, 1] [] 4 =
      .ok ([72, 69, 76, 76, 79], 0, []) :=
  decode_encode_roundtrip [72, 69, 76, 76, 79] 4
    [72, 69, 76, 76, 79, 142, 148, 89, 1]
    (by unfold Bytes; decide) (by norm_num) (by norm_num) (by norm_num)
    (by norm_num) (by rfl)

/-! ## Behaviour one past the correction bound -/

/-- C4 counterexample: the claim "with `2t + e = nsym + 2` decode fails
and never returns a message different from the original" is false on the
code: for `nsym = 2` the message `[0]` encodes to `[0, 0, 0]`; corrupting
`t = 2` positions (indices 0 and 1, nonzero xor deltas — so
`2t + e = 4 = nsym + 2`, one past the bound) yields `[1, 3, 0]`, on which
decode *succeeds* and returns the message `[1] ≠ [0]`. -/
theorem decode_one_past_bound_counterexample :
    encode [0] 2 = Except.ok [0, 0, 0] ∧
    (List.range 3).filter
      (fun i => [1, 3, 0].getD i 0 != [0, 0, 0].getD i 0) = [0, 1] ∧
    decode [1, 3, 0] [] 2 = Except.ok ([1], 1, [2]) ∧
    ([1] : List Nat) ≠ [0] :=
  ⟨by rfl, by rfl, by rfl, by decide⟩

/-- C4 amended: one past the bound (`2t + e = nsym + 2`), decode is not
guaranteed to reject: some such patterns fail with one of the declared
errors, but others are silently miscorrected to a different message.  Both
behaviours occur: flipping 3 bytes of the `nsym = 4` encoding of `b"HELLO"`
(`2t + e = 6 = nsym + 2`) fails with `TooManyErrors`, while the `nsym = 2`
pattern above succeeds with a wrong message. -/
theorem decode_one_past_bound_behaviour :
    (encode [72, 69, 76, 76, 79] 4 =
        Except.ok [72, 69, 76, 76, 79, 142, 148, 89, 1] ∧
      (List.range 9).filter
        (fun i => [183, 69, 76, 76, 176, 142, 148, 166, 1].getD i 0 !=
          [72, 69, 76, 76, 79, 142, 148, 89, 1].getD i 0) = [0, 4, 7] ∧
      decode [183, 69, 76, 76, 176, 142, 148, 166, 1] [] 4 =
        Except.error RSError.TooManyErrors) ∧
    (encode [0] 2 = Except.ok [0, 0, 0] ∧
      decode [1, 3, 0] [] 2 = Except.ok ([1], 1, [2]) ∧
      ([1] : List Nat) ≠ [0]) :=
  ⟨⟨by rfl, by rfl, by rfl⟩, by rfl, by rfl, by decide⟩

/-! ## Determinism -/

/-- C7: decoding is deterministic: two calls with identical received
codewords, identical erasure-position sequences and identical codec
configuration produce identical results. -/
theorem decode_deterministic (r1 r2 e1 e2 : List Nat) (n1 n2 : Nat)
    (hr : r1 = r2) (he : e1 = e2) (hn : n1 = n2) :
    decode r1 e1 n1 = decode r2 e2 n2 := by
  rw [hr, he, hn]

/-- Witness for C7 at a concrete input. -/
theorem decode_deterministic_witness :
    decode [1, 3, 0] [] 2 = decode [1, 3, 0] [] 2 :=
  decode_deterministic [1, 3, 0] [1, 3, 0] [] [] 2 2 rfl rfl rfl

/-! ## The demo script (`src/reed-solomon.py`) -/

/-- One lowercase hexadecimal digit (0–9, a–f). -/
def hexDigit (n : Nat) : Char :=
  if n < 10 then Char.ofNat (48 + n) else Char.ofNat (87 + n)

/-- Model of `hexify` (lines 15–17): `b.hex()` — two lowercase hex digits per byte,
in byte order. -/
def hexify (b : List Nat) : String :=
  String.mk (b.flatMap fun x => [hexDigit (x / 16), hexDigit (x % 16)])

/-- The demo's validated numeric prompt loop (lines 47–56, 77–85, 111–119):
it re-prompts until an entry satisfies the bounds, so the accepted value is
the first in-bounds entry of the input stream. -/
def firstValidInput (lo hi : Nat) (inputs : List Nat) : Option Nat :=
  inputs.find? fun v => lo ≤ v && v ≤ hi

/-- The demo's corruption step (lines 88–91 and 122–125): xor `0xFF` into
each selected position of the codeword. -/
def demoCorrupt (cw ps : List Nat) : List Nat :=
  ps.foldl (fun c p => c.set p (c.getD p 0 ^^^ 0xFF)) cw

/-- The demo's position sampling (lines 88 and 122):
`sorted(random.sample(range(len(codeword)), k))`.  `random.sample` returns
distinct in-range values (stated as hypotheses where used); the demo sorts
them ascending. -/
def demoPositions (s : List Nat) : List Nat := List.insertionSort (· ≤ ·) s

/-- The demo's erasure-branch decode call (line 134): the sorted positions
are passed unchanged as `erase_pos`. -/
def demoErasureDecode (cw s : List Nat) (nsym : Nat) :
    Except RSError (List Nat × Nat × List Nat) :=
  decode (demoCorrupt cw (demoPositions s)) (demoPositions s) nsym

/-! ### C8: hexify -/

theorem hexDigit_mem_lowercase {n : Nat} (hn : n < 16) :
    hexDigit n ∈ ("0123456789abcdef".data) := by
  revert hn
  revert n
  decide

/-- C8: for every byte list `b`, `hexify b` is a string of length exactly
`2 * len(b)`, whose characters at indices `2i` and `2i+1` are the lowercase
hexadecimal digits of byte `i` (high nibble first), all drawn from
`0123456789abcdef`. -/
theorem hexify_spec (b : List Nat) (hb : ∀ c ∈ b, c < 256) :
    (hexify b).length = 2 * b.length ∧
    (∀ i, i < b.length →
      (hexify b).data[2 * i]? = some (hexDigit (b.getD i 0 / 16)) ∧
      (hexify b).data[2 * i + 1]? = some (hexDigit (b.getD i 0 % 16))) ∧
    (∀ ch ∈ (hexify b).data, ch ∈ ("0123456789abcdef".data)) := by
  induction b with
  | nil =>
    refine ⟨rfl, ?_, ?_⟩
    · intro i hi; simp at hi
    · intro ch hch; cases hch
  | cons x b ih =>
    have hx : x < 256 := hb x (List.mem_cons_self _ _)
    have hb' : ∀ c ∈ b, c < 256 := fun c hc => hb c (List.mem_cons_of_mem _ hc)
    obtain ⟨ihlen, ihidx, ihmem⟩ := ih hb'
    have hdata : (hexify (x :: b)).data =
        hexDigit (x / 16) :: hexDigit (x % 16) :: (hexify b).data := rfl
    refine ⟨?_, ?_, ?_⟩
    · show (hexify (x :: b)).data.length = 2 * (x :: b).length
      rw [hdata]
      simp only [List.length_cons]
      have : (hexify b).data.length = 2 * b.length := ihlen
      omega
    · intro i hi
      cases i with
      | zero =>
        refine ⟨?_, ?_⟩ <;>
          simp [hdata, List.getElem?_cons_succ, List.getElem?_cons_zero]
      | succ j =>
        have hj : j < b.length := by simpa using hi
        have h2 : 2 * (j + 1) = (2 * j) + 1 + 1 := by omega
        rw [hdata, h2]
        simp only [List.getElem?_cons_succ]
        have := ihidx j hj
        simpa using this
    · intro ch hch
      rw [hdata] at hch
      rcases List.mem_cons.1 hch with h | h
      · subst h
        exact hexDigit_mem_lowercase (by omega)
      rcases List.mem_cons.1 h with h' | h'
      · subst h'
        exact hexDigit_mem_lowercase (by omega)
      · exact ihmem ch h'

/-- Witness for C8 at a concrete input. -/
theorem hexify_spec_witness :
    (hexify [0, 171, 255]).length = 2 * ([0, 171, 255] : List Nat).length ∧
    (∀ i, i < ([0, 171, 255] : List Nat).length →
      (hexify [0, 171, 255]).data[2 * i]? =
        some (hexDigit ([0, 171, 255].getD i 0 / 16)) ∧
      (hexify [0, 171, 255]).data[2 * i + 1]? =
        some (hexDigit ([0, 171, 255].getD i 0 % 16))) ∧
    (∀ ch ∈ (hexify [0, 171, 255]).data, ch ∈ ("0123456789abcdef".data)) :=
  hexify_spec [0, 171, 255] (by decide)

/-! ### C9: the demo's positions are ascending, distinct, and in range -/

/-- C9: under `random.sample`'s contract (distinct in-range values), the
demo's sorted position lists are strictly ascending sequences of pairwise
distinct indices below the codeword length, and the erasure branch passes
exactly that sorted duplicate-free list to `decode` as `erase_pos`. -/
theorem demo_positions_ascending (n : Nat) (s : List Nat)
    (hnd : s.Nodup) (hbound : ∀ p ∈ s, p < n) :
    List.Sorted (· < ·) (demoPositions s) ∧
    (demoPositions s).Nodup ∧
    (∀ p ∈ demoPositions s, p < n) ∧
    (∀ cw nsym, demoErasureDecode cw s nsym =
      decode (demoCorrupt cw (demoPositions s)) (demoPositions s) nsym) := by
  have hperm : List.Perm (demoPositions s) s := List.perm_insertionSort _ s
  have hnd' : (demoPositions s).Nodup := hperm.nodup_iff.2 hnd
  have hsorted : List.Sorted (· ≤ ·) (demoPositions s) :=
    List.sorted_insertionSort _ s
  refine ⟨hsorted.lt_of_le hnd', hnd', ?_, fun _ _ => rfl⟩
  intro p hp
  exact hbound p (hperm.subset hp)

/-- Witness for C9 at a concrete input. -/
theorem demo_positions_ascending_witness :
    List.Sorted (· < ·) (demoPositions [5, 2, 7]) ∧
    (demoPositions [5, 2, 7]).Nodup ∧
    (∀ p ∈ demoPositions [5, 2, 7], p < 9) ∧
    (∀ cw nsym, demoErasureDecode cw [5, 2, 7] nsym =
      decode (demoCorrupt cw (demoPositions [5, 2, 7]))
        (demoPositions [5, 2, 7]) nsym) :=
  demo_positions_ascending 9 [5, 2, 7] (by decide) (by decide)

/-! ### C10: the corruption step and the input-validation loops -/

theorem xor_255_ne {x : Nat} : x ^^^ 0xFF ≠ x := by
  intro h
  have h2 : x ^^^ 0xFF = x ^^^ 0 := by rw [Nat.xor_zero]; exact h
  have := Nat.xor_right_inj.1 h2
  cases this

theorem demoCorrupt_getD :
    ∀ (ps cw : List Nat), ps.Nodup → (∀ p ∈ ps, p < cw.length) →
      (demoCorrupt cw ps).length = cw.length ∧
      ∀ i, i < cw.length →
        (demoCorrupt cw ps).getD i 0 =
          (if i ∈ ps then cw.getD i 0 ^^^ 0xFF else cw.getD i 0) := by
  intro ps
  induction ps with
  | nil =>
    intro cw _ _
    refine ⟨rfl, ?_⟩
    intro i _
    rw [if_neg (List.not_mem_nil i)]
    rfl
  | cons p ps ih =>
    intro cw hnd hbound
    have hp : p < cw.length := hbound p (List.mem_cons_self _ _)
    have hpns : p ∉ ps := (List.nodup_cons.1 hnd).1
    have hnd' : ps.Nodup := (List.nodup_cons.1 hnd).2
    have hstep : demoCorrupt cw (p :: ps) =
        demoCorrupt (cw.set p (cw.getD p 0 ^^^ 0xFF)) ps := rfl
    have hlenset : (cw.set p (cw.getD p 0 ^^^ 0xFF)).length = cw.length :=
      List.length_set cw p _
    have hbound' : ∀ q ∈ ps, q < (cw.set p (cw.getD p 0 ^^^ 0xFF)).length := by
      intro q hq
      rw [hlenset]
      exact hbound q (List.mem_cons_of_mem _ hq)
    obtain ⟨ihlen, ihval⟩ := ih (cw.set p (cw.getD p 0 ^^^ 0xFF)) hnd' hbound'
    constructor
    · rw [hstep, ihlen, hlenset]
    · intro i hi
      rw [hstep, ihval i (by rw [hlenset]; exact hi)]
      have hgset : (cw.set p (cw.getD p 0 ^^^ 0xFF)).getD i 0 =
          (if p = i then cw.getD p 0 ^^^ 0xFF else cw.getD i 0) := by
        by_cases hpi : p = i
        · subst hpi
          rw [if_pos rfl]
          rw [List.getD_eq_getElem?_getD, List.getElem?_set_self hp]
          rfl
        · rw [if_neg hpi]
          rw [List.getD_eq_getElem?_getD, List.getElem?_set_ne hpi,
            ← List.getD_eq_getElem?_getD]
      by_cases hips : i ∈ ps
      · rw [if_pos hips, if_pos (List.mem_cons_of_mem _ hips), hgset]
        have : p ≠ i := fun h => hpns (h ▸ hips)
        rw [if_neg this]
      · rw [if_neg hips, hgset]
        by_cases hpi : p = i
        · rw [if_pos hpi, if_pos (hpi ▸ List.mem_cons_self p ps)]
          rw [hpi]
        · rw [if_neg hpi, if_neg (by
            intro hmem
            rcases List.mem_cons.1 hmem with h | h
            · exact hpi h.symm
            · exact hips h)]

/-- C10: the demo's corruption step changes exactly the selected
positions (xor with `0xFF` always changes the byte), and the validated input
loops only ever accept an error count in `[1, nsym/2]` and an erasure count
in `[1, nsym]`. -/
theorem demo_corruption_spec (cw ps : List Nat) (nsym : Nat)
    (errInputs erasInputs : List Nat)
    (hnd : ps.Nodup) (hbound : ∀ p ∈ ps, p < cw.length) :
    ((demoCorrupt cw ps).length = cw.length ∧
      (∀ i, i < cw.length →
        ((demoCorrupt cw ps).getD i 0 ≠ cw.getD i 0 ↔ i ∈ ps)) ∧
      (∀ p ∈ ps, (demoCorrupt cw ps).getD p 0 = cw.getD p 0 ^^^ 0xFF)) ∧
    (∀ v, firstValidInput 1 (nsym / 2) errInputs = some v →
      1 ≤ v ∧ v ≤ nsym / 2) ∧
    (∀ v, firstValidInput 1 nsym erasInputs = some v → 1 ≤ v ∧ v ≤ nsym) := by
  obtain ⟨hlen, hval⟩ := demoCorrupt_getD ps cw hnd hbound
  refine ⟨⟨hlen, ?_, ?_⟩, ?_, ?_⟩
  · intro i hi
    rw [hval i hi]
    by_cases hips : i ∈ ps
    · rw [if_pos hips]
      simp only [hips, iff_true]
      exact xor_255_ne
    · rw [if_neg hips]
      simp [hips]
  · intro p hp
    rw [hval p (hbound p hp), if_pos hp]
  · intro v hv
    have := List.find?_some hv
    simp only [Bool.and_eq_true, decide_eq_true_eq] at this
    exact this
  · intro v hv
    have := List.find?_some hv
    simp only [Bool.and_eq_true, decide_eq_true_eq] at this
    exact this

/-- Witness for C10 at a concrete input. -/
theorem demo_corruption_spec_witness :
    ((demoCorrupt [10, 20, 30] [0, 2]).length = ([10, 20, 30] : List Nat).length ∧
      (∀ i, i < ([10, 20, 30] : List Nat).length →
        ((demoCorrupt [10, 20, 30] [0, 2]).getD i 0 ≠
            ([10, 20, 30] : List Nat).getD i 0 ↔ i ∈ ([0, 2] : List Nat))) ∧
      (∀ p ∈ ([0, 2] : List Nat),
        (demoCorrupt [10, 20, 30] [0, 2]).getD p 0 =
          ([10, 20, 30] : List Nat).getD p 0 ^^^ 0xFF)) ∧
    (∀ v, firstValidInput 1 (8 / 2) [9, 0, 3, 1] = some v → 1 ≤ v ∧ v ≤ 8 / 2) ∧
    (∀ v, firstValidInput 1 8 [200, 7] = some v → 1 ≤ v ∧ v ≤ 8) :=
  demo_corruption_spec [10, 20, 30] [0, 2] 8 [9, 0, 3, 1] [200, 7]
    (by decide) (by decide)

end RS
